import Mathlib

/-!
Verification of the Sudoku solver (`sudoku_solver.py`).

The board is a 9x9 grid of `Int` values, `-1` standing for an empty cell and
`1..9` for committed digits; it is modelled as a total function on `Nat`
indices (only indices `0..8` are ever consulted by the functions below, which
scan `List.range 9` exactly as the Python code scans `range(9)`).  The
candidate structure `possibilities` mirrors the Python list-of-lists of
`options` lists with `None` for filled cells: a function to `Option (List Int)`.

All definitions are direct transcriptions of the Python functions and keep
their names.  The in-place single-candidate fill loop of `one_stage`
(lines 151-158 of the source) writes only to the cell it is currently
visiting and reads only that same cell's `possibilities` entry (entries
mutated earlier in the pass are at already-visited cells), so it is
transcribed as the two pointwise maps `fill_singletons_board` /
`fill_singletons_poss`, and its `updated` flag is exactly
`possible_continuation` of the entry map.  The `while True` loop of
`one_stage` is given explicit fuel; `one_stage_terminates` proves fuel 82
always suffices.
-/

set_option maxRecDepth 100000

namespace Sudoku

abbrev Board := Nat → Nat → Int

abbrev Poss := Nat → Nat → Option (List Int)

/-- Row-major list of the 81 cell coordinates, the iteration order
`for r in range(9): for c in range(9)` used throughout the source. -/
def coords : List (Nat × Nat) :=
  (List.range 9).flatMap (fun r => (List.range 9).map (fun c => (r, c)))

/-- `option_in_part(row)`: all digits 1-9 that do not appear in the given
9-element part (source lines 35-37, `range(1, 10)`). -/
def option_in_part (part : List Int) : List Int :=
  ((List.range' 1 9).map (fun n => (n : Int))).filter (fun num => decide (num ∉ part))

/-- The row `sudoku_board[r]` as a list. -/
def row_list (b : Board) (r : Nat) : List Int :=
  (List.range 9).map (fun c => b r c)

/-- The column `[sudoku_board[i][c] for i in range(9)]` as a list. -/
def col_list (b : Board) (c : Nat) : List Int :=
  (List.range 9).map (fun r => b r c)

/-- The 3x3 square with top-left corner `(r0, c0)` in row-major order,
as built by the nested loops in `options` and `is_board_failure`. -/
def square_list_at (b : Board) (r0 c0 : Nat) : List Int :=
  (List.range 3).flatMap (fun i => (List.range 3).map (fun j => b (r0 + i) (c0 + j)))

/-- The 3x3 square containing cell `(r, c)`: corner `(3*(r//3), 3*(c//3))`. -/
def square_list (b : Board) (r c : Nat) : List Int :=
  square_list_at b (3 * (r / 3)) (3 * (c / 3))

/-- `options(sudoku_board, loc)` (source lines 40-62): `[]` for a filled
cell; otherwise the digits legal in the row, the column and the square,
assembled as `[n for n in opts_square if n in opts_row and n in opts_col]`. -/
def options (b : Board) (loc : Nat × Nat) : List Int :=
  if b loc.1 loc.2 ≠ -1 then []
  else
    let opts_row := option_in_part (row_list b loc.1)
    let opts_col := option_in_part (col_list b loc.2)
    let opts_square := option_in_part (square_list b loc.1 loc.2)
    opts_square.filter (fun n => decide (n ∈ opts_row) && decide (n ∈ opts_col))

/-- `possible_digits(sudoku_board)` (source lines 65-73): per cell, the
`options` list for an empty cell and `None` for a filled one. -/
def possible_digits (b : Board) : Poss :=
  fun r c => if b r c = -1 then some (options b (r, c)) else none

/-- `check_final_board(sudoku_board)` (source lines 76-78): no `-1` cell left. -/
def check_final_board (b : Board) : Bool :=
  coords.all (fun rc => decide (b rc.1 rc.2 ≠ -1))

/-- `check_part_for_failure(part)` (source lines 81-83): transcribed with the
source's loop bound, `for num in range(9)`, i.e. the digits 0-8. -/
def check_part_for_failure (part : List Int) : Bool :=
  (List.range 9).any (fun num => decide (1 < part.count ((num : Int))) && decide ((num : Int) ≠ -1))

/-- `is_board_failure(sudoku_board)` (source lines 86-101): some row, column
or 3x3 square fails `check_part_for_failure`. -/
def is_board_failure (b : Board) : Bool :=
  ((List.range 9).any (fun i =>
      check_part_for_failure (row_list b i) || check_part_for_failure (col_list b i))) ||
  ((List.range 3).any (fun i => (List.range 3).any (fun j =>
      check_part_for_failure (square_list_at b (3 * i) (3 * j)))))

/-- `possible_continuation(possibilities)` (source lines 104-107): some cell
has exactly one possible digit. -/
def possible_continuation (p : Poss) : Bool :=
  coords.any (fun rc =>
    match p rc.1 rc.2 with
    | some opts => decide (opts.length = 1)
    | none => false)

/-- One step of the scan in `find_least_options` (source lines 112-117):
`if opts is not None and 0 < len(opts) < min_len: min_len, min_loc = len(opts), (r, c)`. -/
def fl_step (p : Poss) (acc : Nat × Option (Nat × Nat)) (rc : Nat × Nat) :
    Nat × Option (Nat × Nat) :=
  match p rc.1 rc.2 with
  | some opts => if 0 < opts.length ∧ opts.length < acc.1 then (opts.length, some rc) else acc
  | none => acc

/-- `find_least_options(possibilities)` (source lines 110-118): row-major scan
keeping the first cell strictly improving the running minimum, started at
`min_len, min_loc = 10, None`. -/
def find_least_options (p : Poss) : Option (Nat × Nat) :=
  (coords.foldl (fl_step p) (10, none)).2

/-- `is_out_of_options(possibilities)` (source lines 121-124): some empty cell
has zero valid digits. -/
def is_out_of_options (p : Poss) : Bool :=
  coords.any (fun rc =>
    match p rc.1 rc.2 with
    | some opts => decide (opts.length = 0)
    | none => false)

/-- The three result tags of `one_stage`, with the location payload of the
`NOT_FINISH` case (`find_least_options` may return `None`). -/
inductive StageResult where
  | FINISH_FAILURE
  | FINISH_SUCCESS
  | NOT_FINISH (loc : Option (Nat × Nat))
deriving DecidableEq

/-- Board after the single-candidate fill pass of `one_stage` (source lines
151-158): every cell whose `possibilities` entry is a one-element list
receives that element. -/
def fill_singletons_board (b : Board) (p : Poss) : Board :=
  fun r c =>
    match p r c with
    | some [d] => d
    | _ => b r c

/-- Candidate map after the same pass: entries of the cells just filled are
set to `None`, every other entry is left as it was. -/
def fill_singletons_poss (p : Poss) : Poss :=
  fun r c =>
    match p r c with
    | some [_] => none
    | _ => p r c

/-- `one_stage(sudoku_board, possibilities)` (source lines 129-162), the
`while True` loop made structural with explicit fuel; `none` means the fuel
ran out (never happens with fuel 82, see `one_stage_terminates`).  Returns
the result tag together with the mutated board and candidate map. -/
def one_stage : Nat → Board → Poss → Option (StageResult × Board × Poss)
  | 0, _, _ => none
  | n + 1, b, p =>
    if is_board_failure b || is_out_of_options p then
      some (StageResult.FINISH_FAILURE, b, p)
    else if check_final_board b then
      some (StageResult.FINISH_SUCCESS, b, p)
    else if !possible_continuation p then
      some (StageResult.NOT_FINISH (find_least_options p), b, p)
    else
      let bn := fill_singletons_board b p
      let pn := fill_singletons_poss p
      if possible_continuation p then one_stage n bn pn
      else some (StageResult.NOT_FINISH (find_least_options pn), bn, pn)

/-- In-place cell assignment `sudoku_board[r][c] = v`. -/
def set_cell (b : Board) (r c : Nat) (v : Int) : Board :=
  fun i j => if i = r ∧ j = c then v else b i j

/-- The transient write `sudoku_board[r][c] = 0` performed by `fill_board`
before prompting (source line 177, "temporary placeholder for display"). -/
def prompt_board (b : Board) (r c : Nat) : Board :=
  set_cell b r c 0

/-- The input loop `while choice not in cell_options` of `fill_board`
(source lines 180-185), the stream of parsed user inputs made explicit:
the first reply that is a member of `cell_options` is accepted, every
earlier reply is rejected and re-prompted; `none` if the stream runs dry. -/
def accept_choice (cell_options : List Int) : List Int → Option Int
  | [] => none
  | x :: xs => if x ∈ cell_options then some x else accept_choice cell_options xs

/-- The `NOT_FINISH` branch of `fill_board` (source lines 174-187): write the
display placeholder, accept the first valid reply, commit it and recompute
the whole candidate map with `possible_digits`. -/
def handle_not_finish (b : Board) (p : Poss) (r c : Nat) (replies : List Int) :
    Option (Board × Poss) :=
  match accept_choice ((p r c).getD []) replies with
  | some choice =>
      let b1 := set_cell (prompt_board b r c) r c choice
      some (b1, possible_digits b1)
  | none => none

/-- Build a board from row lists; absent entries read as empty. -/
def board_of_lists (l : List (List Int)) : Board :=
  fun r c => (l.getD r []).getD c (-1)

/-- The all-empty board. -/
def empty_board : Board := fun _ _ => -1

/-- Spec-level invalidity, written from the spec's words for comparison with
`is_board_failure`: some row, column or 3x3 box contains a duplicate of some
digit 1 through 9 among its non-empty cells (`isInvalid` in the spec). -/
def spec_part_has_dup (part : List Int) : Bool :=
  (List.range' 1 9).any (fun num => decide (1 < part.count ((num : Int))))

/-- Spec-level board invalidity over all rows, columns and boxes. -/
def spec_board_invalid (b : Board) : Bool :=
  ((List.range 9).any (fun i =>
      spec_part_has_dup (row_list b i) || spec_part_has_dup (col_list b i))) ||
  ((List.range 3).any (fun i => (List.range 3).any (fun j =>
      spec_part_has_dup (square_list_at b (3 * i) (3 * j)))))

/-- A board whose only filled cells are two 9s in row 0 (columns 0 and 5). -/
def two_nines_board : Board :=
  board_of_lists [[9, -1, -1, -1, -1, 9, -1, -1, -1]]

/-- A complete board: a valid filled grid except that cell (0,0) holds 9,
duplicating the 9s of row 0, column 0 and the top-left box. -/
def full_dup_board : Board :=
  board_of_lists [
    [9, 2, 3, 4, 5, 6, 7, 8, 9],
    [4, 5, 6, 7, 8, 9, 1, 2, 3],
    [7, 8, 9, 1, 2, 3, 4, 5, 6],
    [2, 3, 4, 5, 6, 7, 8, 9, 1],
    [5, 6, 7, 8, 9, 1, 2, 3, 4],
    [8, 9, 1, 2, 3, 4, 5, 6, 7],
    [3, 4, 5, 6, 7, 8, 9, 1, 2],
    [6, 7, 8, 9, 1, 2, 3, 4, 5],
    [9, 1, 2, 3, 4, 5, 6, 7, 8]]

/-- A board whose row 0 holds 1..8 and one empty cell: cell (0,8) is the
single forced cell, and filling it with 9 changes the legal digits of the
other open cells of column 8 and of the top-right box. -/
def forced_nine_board : Board :=
  board_of_lists [[1, 2, 3, 4, 5, 6, 7, 8, -1]]

/-- Membership in `coords` is exactly the pairs with both components below 9. -/
theorem mem_coords (rc : Nat × Nat) : rc ∈ coords ↔ rc.1 < 9 ∧ rc.2 < 9 := by
  obtain ⟨r, c⟩ := rc
  simp [coords, List.mem_flatMap, List.mem_map, List.mem_range]

/-- Membership in a row list. -/
theorem mem_row_list (b : Board) (r : Nat) (d : Int) :
    d ∈ row_list b r ↔ ∃ c, c < 9 ∧ b r c = d := by
  simp [row_list, List.mem_map, List.mem_range]

/-- Membership in a column list. -/
theorem mem_col_list (b : Board) (c : Nat) (d : Int) :
    d ∈ col_list b c ↔ ∃ r, r < 9 ∧ b r c = d := by
  simp [col_list, List.mem_map, List.mem_range]

/-- Membership in a 3x3 square list. -/
theorem mem_square_list_at (b : Board) (r0 c0 : Nat) (d : Int) :
    d ∈ square_list_at b r0 c0 ↔ ∃ i, i < 3 ∧ ∃ j, j < 3 ∧ b (r0 + i) (c0 + j) = d := by
  simp [square_list_at, List.mem_flatMap, List.mem_map, List.mem_range]

/-- The digit pool `range(1, 10)` evaluates to the literal list 1-9. -/
theorem digits_eq :
    (List.range' 1 9).map (fun n => (n : Int)) = [1, 2, 3, 4, 5, 6, 7, 8, 9] := by decide

/-- `option_in_part` returns exactly the digits 1-9 absent from the part. -/
theorem mem_option_in_part (part : List Int) (d : Int) :
    d ∈ option_in_part part ↔ 1 ≤ d ∧ d ≤ 9 ∧ d ∉ part := by
  rw [option_in_part, digits_eq]
  simp only [List.mem_filter, decide_eq_true_eq, List.mem_cons, List.not_mem_nil, or_false]
  constructor
  · rintro ⟨hmem, hnp⟩
    refine ⟨?_, ?_, hnp⟩ <;> rcases hmem with h | h | h | h | h | h | h | h | h <;> omega
  · rintro ⟨h1, h9, hnp⟩
    exact ⟨by omega, hnp⟩

/-- `options` membership characterization: the cell is open and the digit is
1-9, absent from the row, the column and the square. -/
theorem mem_options (b : Board) (r c : Nat) (d : Int) :
    d ∈ options b (r, c) ↔
      b r c = -1 ∧ 1 ≤ d ∧ d ≤ 9 ∧
      d ∉ row_list b r ∧ d ∉ col_list b c ∧ d ∉ square_list b r c := by
  rcases eq_or_ne (b r c) (-1) with h | h
  · rw [options, if_neg (not_not_intro h)]
    simp only [List.mem_filter, Bool.and_eq_true, decide_eq_true_eq, mem_option_in_part]
    constructor
    · rintro ⟨⟨h1, h9, hsq⟩, ⟨_, _, hrow⟩, ⟨_, _, hcol⟩⟩
      exact ⟨h, h1, h9, hrow, hcol, hsq⟩
    · rintro ⟨_, h1, h9, hrow, hcol, hsq⟩
      exact ⟨⟨h1, h9, hsq⟩, ⟨h1, h9, hrow⟩, ⟨h1, h9, hcol⟩⟩
  · rw [options, if_pos h]
    simp [h]

/-- C7.  For a filled cell the candidate computation returns the empty list;
for an open cell it returns exactly the digits 1-9 that appear nowhere in the
cell's row, column or 3x3 box. -/
theorem options_characterization (b : Board) (r c : Nat) :
    (b r c ≠ -1 → options b (r, c) = []) ∧
    (b r c = -1 → ∀ d : Int,
      d ∈ options b (r, c) ↔
        (1 ≤ d ∧ d ≤ 9 ∧ d ∉ row_list b r ∧ d ∉ col_list b c ∧ d ∉ square_list b r c)) := by
  constructor
  · intro h
    rw [options, if_pos h]
  · intro h d
    rw [mem_options]
    tauto

/-- Witness for C7: on the empty board the digit 5 is a candidate of the open
cell (0,0). -/
theorem options_characterization_witness :
    (5 : Int) ∈ options empty_board (0, 0) :=
  ((options_characterization empty_board 0 0).2 rfl 5).mpr (by decide)

/-- If `bext` agrees with `b` on every filled cell of `b` (it may fill
additional cells but never erases or changes a committed digit), then every
candidate of a cell under `bext` is a candidate under `b`. -/
theorem options_mono (b bext : Board)
    (hext : ∀ i j, b i j ≠ -1 → bext i j = b i j) (r c : Nat) (d : Int)
    (hd : d ∈ options bext (r, c)) : d ∈ options b (r, c) := by
  rw [mem_options] at hd ⊢
  obtain ⟨hopen, h1, h9, hrow, hcol, hsq⟩ := hd
  have hopen0 : b r c = -1 := by
    by_contra hne
    exact hne (((hext r c hne).symm.trans hopen))
  refine ⟨hopen0, h1, h9, ?_, ?_, ?_⟩
  · intro hmem
    obtain ⟨j, hj, hbj⟩ := (mem_row_list b r d).mp hmem
    have hne : b r j ≠ -1 := by rw [hbj]; omega
    exact hrow ((mem_row_list bext r d).mpr ⟨j, hj, by rw [hext r j hne, hbj]⟩)
  · intro hmem
    obtain ⟨i, hi, hbi⟩ := (mem_col_list b c d).mp hmem
    have hne : b i c ≠ -1 := by rw [hbi]; omega
    exact hcol ((mem_col_list bext c d).mpr ⟨i, hi, by rw [hext i c hne, hbi]⟩)
  · intro hmem
    obtain ⟨i, hi, j, hj, hbij⟩ := (mem_square_list_at b _ _ d).mp hmem
    have hne : b (3 * (r / 3) + i) (3 * (c / 3) + j) ≠ -1 := by rw [hbij]; omega
    exact hsq ((mem_square_list_at bext _ _ d).mpr
      ⟨i, hi, j, hj, by rw [hext _ _ hne, hbij]⟩)

/-- C8.  Committing a digit to one open cell can only shrink, never grow, the
candidate set computed for any other open cell. -/
theorem candidate_sets_monotone (b : Board) (r0 c0 : Nat) (v : Int)
    (hopen : b r0 c0 = -1) (hv1 : 1 ≤ v) (hv9 : v ≤ 9)
    (r c : Nat) (hother : ¬(r = r0 ∧ c = c0)) (hopen2 : b r c = -1)
    (d : Int) (hd : d ∈ options (set_cell b r0 c0 v) (r, c)) :
    d ∈ options b (r, c) := by
  refine options_mono b (set_cell b r0 c0 v) ?_ r c d hd
  intro i j hij
  unfold set_cell
  split
  · next hcase =>
    obtain ⟨rfl, rfl⟩ := hcase
    exact absurd hopen hij
  · rfl

/-- Witness for C8: after writing 5 at (0,0) of the empty board, the digit 3
is still a candidate of cell (0,1), hence was one before. -/
theorem candidate_sets_monotone_witness :
    (3 : Int) ∈ options empty_board (0, 1) :=
  candidate_sets_monotone empty_board 0 0 5 rfl (by decide) (by decide) 0 1
    (by decide) rfl 3 (by decide)

/-- C2 (amended).  Within one step, after the single-candidate pass the
candidate map is not recomputed: a cell whose entry was the one-element list
`[d]` now holds `d` on the board and its entry is cleared to `None`; every
other cell keeps its board value and its previous (possibly stale) entry.
The stale entries are still supersets of the valid candidate sets of the
updated board. -/
theorem pass_clears_filled_keeps_rest (b : Board) (r c : Nat) :
    (∀ d : Int, possible_digits b r c = some [d] →
      fill_singletons_board b (possible_digits b) r c = d ∧
      fill_singletons_poss (possible_digits b) r c = none) ∧
    ((∀ d : Int, possible_digits b r c ≠ some [d]) →
      fill_singletons_board b (possible_digits b) r c = b r c ∧
      fill_singletons_poss (possible_digits b) r c = possible_digits b r c) ∧
    (∀ (d : Int) (opts : List Int),
      d ∈ options (fill_singletons_board b (possible_digits b)) (r, c) →
      fill_singletons_poss (possible_digits b) r c = some opts →
      d ∈ opts) := by
  refine ⟨?_, ?_, ?_⟩
  · intro d h
    constructor <;> simp [fill_singletons_board, fill_singletons_poss, h]
  · intro h
    cases hpc : possible_digits b r c with
    | none => constructor <;> simp [fill_singletons_board, fill_singletons_poss, hpc]
    | some opts =>
      rcases opts with _ | ⟨d, _ | ⟨e, rest⟩⟩
      · constructor <;> simp [fill_singletons_board, fill_singletons_poss, hpc]
      · exact absurd hpc (h d)
      · constructor <;> simp [fill_singletons_board, fill_singletons_poss, hpc]
  · intro d opts hd hstale
    have hext : ∀ i j, b i j ≠ -1 →
        fill_singletons_board b (possible_digits b) i j = b i j := by
      intro i j hij
      simp [fill_singletons_board, possible_digits, hij]
    have hmem := options_mono b _ hext r c d hd
    have hpc : possible_digits b r c = some opts := by
      cases hpc : possible_digits b r c with
      | none => simp [fill_singletons_poss, hpc] at hstale
      | some l =>
        rcases l with _ | ⟨x, _ | ⟨y, rest⟩⟩
        · simpa [fill_singletons_poss, hpc] using hstale
        · simp [fill_singletons_poss, hpc] at hstale
        · simpa [fill_singletons_poss, hpc] using hstale
    have hopts : opts = options b (r, c) := by
      by_cases hb : b r c = -1
      · simpa [possible_digits, hb] using hpc.symm
      · simp [possible_digits, hb] at hpc
    rw [hopts]
    exact hmem

/-- Witness for C2 (amended): on `forced_nine_board` the digit 5, valid for
cell (1,8) after the pass filled (0,8) with 9, is a member of the stale entry
the pass left for (1,8). -/
theorem pass_clears_filled_keeps_rest_witness :
    (5 : Int) ∈ options forced_nine_board (1, 8) :=
  (pass_clears_filled_keeps_rest forced_nine_board 1 8).2.2 5
    (options forced_nine_board (1, 8)) (by decide) (by decide)

/-- The reply loop returns a member of the offered option list. -/
theorem accept_choice_mem (opts : List Int) :
    ∀ (replies : List Int) (choice : Int),
      accept_choice opts replies = some choice → choice ∈ opts := by
  intro replies
  induction replies with
  | nil => intro choice h; exact absurd h (by simp [accept_choice])
  | cons x xs ih =>
    intro choice h
    rw [accept_choice] at h
    split at h
    · next hx => cases h; exact hx
    · exact ih choice h

/-- Replies outside the offered option list are skipped: a prefix of invalid
replies does not change the accepted choice. -/
theorem accept_choice_skips (opts : List Int) :
    ∀ (bad replies : List Int), (∀ x ∈ bad, x ∉ opts) →
      accept_choice opts (bad ++ replies) = accept_choice opts replies := by
  intro bad
  induction bad with
  | nil => intro replies _; rfl
  | cons x xs ih =>
    intro replies hbad
    rw [List.cons_append, accept_choice,
      if_neg (hbad x (List.mem_cons_self x xs)), ih replies
        (fun y hy => hbad y (List.mem_cons_of_mem x hy))]

/-- C5 (amended).  A reply outside the offered candidate set is rejected and
re-prompted and causes no mutation of its own (prepending invalid replies
leaves the outcome unchanged); an accepted reply is always a member of the
offered set, never clamped, and commits exactly that digit followed by a
full candidate recomputation.  (The awaiting cell does hold the transient
display placeholder 0 while the prompt is pending, overwritten on accept —
see `placeholder_mutates_awaiting_cell`.) -/
theorem invalid_replies_rejected (b : Board) (p : Poss) (r c : Nat)
    (bad replies : List Int)
    (hbad : ∀ x ∈ bad, x ∉ (p r c).getD []) :
    handle_not_finish b p r c (bad ++ replies) = handle_not_finish b p r c replies ∧
    ∀ choice : Int, accept_choice ((p r c).getD []) replies = some choice →
      choice ∈ (p r c).getD [] ∧
      handle_not_finish b p r c replies =
        some (set_cell b r c choice, possible_digits (set_cell b r c choice)) := by
  constructor
  · unfold handle_not_finish
    rw [accept_choice_skips _ _ _ hbad]
  · intro choice hch
    refine ⟨accept_choice_mem _ _ _ hch, ?_⟩
    have hb : set_cell (prompt_board b r c) r c choice = set_cell b r c choice := by
      funext i j
      simp only [set_cell, prompt_board]
      by_cases hij : i = r ∧ j = c <;> simp [hij]
    unfold handle_not_finish
    rw [hch]
    dsimp only
    rw [hb]

/-- Witness for C5 (amended): on the empty board at cell (0,0), the invalid
reply 0 is skipped and the outcome equals that of the stream without it. -/
theorem invalid_replies_rejected_witness :
    handle_not_finish empty_board (possible_digits empty_board) 0 0 ([0] ++ [5]) =
      handle_not_finish empty_board (possible_digits empty_board) 0 0 [5] :=
  (invalid_replies_rejected empty_board (possible_digits empty_board) 0 0 [0] [5]
    (by decide)).1

/-- Number of cells still carrying a candidate entry (the open cells of the
map); the termination measure of the `while True` loop of `one_stage`. -/
def count_some (p : Poss) : Nat :=
  coords.countP (fun rc => (p rc.1 rc.2).isSome)

/-- A pointwise-smaller predicate has a smaller count. -/
theorem countP_le_of_pointwise {α : Type} (f g : α → Bool) :
    ∀ l : List α, (∀ x ∈ l, f x = true → g x = true) → l.countP f ≤ l.countP g := by
  intro l
  induction l with
  | nil => intro _; simp
  | cons a l ih =>
    intro hle
    rw [List.countP_cons, List.countP_cons]
    have h1 : l.countP f ≤ l.countP g := ih (fun x hx => hle x (List.mem_cons_of_mem a hx))
    by_cases hfa : f a = true
    · have hga : g a = true := hle a (List.mem_cons_self a l) hfa
      rw [if_pos hfa, if_pos hga]
      omega
    · rw [if_neg hfa]
      split <;> omega

/-- A pointwise-smaller predicate that loses at least one member has a
strictly smaller count. -/
theorem countP_lt_of_pointwise {α : Type} (f g : α → Bool) :
    ∀ l : List α, (∀ x ∈ l, f x = true → g x = true) →
      ∀ x0 ∈ l, g x0 = true → f x0 = false → l.countP f < l.countP g := by
  intro l
  induction l with
  | nil => intro _ x0 hx0; simp at hx0
  | cons a l ih =>
    intro hle x0 hx0 hg hf
    rw [List.countP_cons, List.countP_cons]
    have hrest : ∀ x ∈ l, f x = true → g x = true :=
      fun x hx => hle x (List.mem_cons_of_mem a hx)
    rcases List.mem_cons.mp hx0 with rfl | hx0l
    · have h1 : l.countP f ≤ l.countP g := countP_le_of_pointwise f g l hrest
      rw [if_neg (by simp [hf]), if_pos hg]
      omega
    · have h1 : l.countP f < l.countP g := ih hrest x0 hx0l hg hf
      by_cases hfa : f a = true
      · have hga : g a = true := hle a (List.mem_cons_self a l) hfa
        rw [if_pos hfa, if_pos hga]
        omega
      · rw [if_neg hfa]
        split <;> omega

/-- When a single-candidate cell exists, the fill pass strictly decreases the
number of open entries of the candidate map: it fills that cell and sets its
entry to `None`, and no entry ever goes from `None` to present. -/
theorem fill_pass_decreases (p : Poss) (h : possible_continuation p = true) :
    count_some (fill_singletons_poss p) < count_some p := by
  rw [possible_continuation, List.any_eq_true] at h
  obtain ⟨rc, hrc, hsing⟩ := h
  have hopts : ∃ opts, p rc.1 rc.2 = some opts ∧ opts.length = 1 := by
    cases hp : p rc.1 rc.2 with
    | none => rw [hp] at hsing; exact absurd hsing (by simp)
    | some opts =>
      rw [hp] at hsing
      exact ⟨opts, rfl, by simpa using hsing⟩
  obtain ⟨opts, hp, hlen⟩ := hopts
  obtain ⟨d, rfl⟩ := List.length_eq_one.mp hlen
  refine countP_lt_of_pointwise _ _ coords ?_ rc hrc ?_ ?_
  · intro x _ hx
    cases hpx : p x.1 x.2 with
    | none => rw [fill_singletons_poss, hpx] at hx; exact absurd hx (by simp)
    | some l => simp [hpx]
  · simp [hp]
  · simp [fill_singletons_poss, hp]

/-- `possible_continuation` needs at least one present entry. -/
theorem count_some_pos (p : Poss) (h : possible_continuation p = true) :
    0 < count_some p := by
  rw [possible_continuation, List.any_eq_true] at h
  obtain ⟨rc, hrc, hsing⟩ := h
  rw [count_some, List.countP_pos_iff]
  refine ⟨rc, hrc, ?_⟩
  cases hp : p rc.1 rc.2 with
  | none => rw [hp] at hsing; exact absurd hsing (by simp)
  | some l => simp

/-- Any fuel exceeding the number of open entries lets `one_stage` reach a
result: each loop iteration either returns or strictly decreases
`count_some`. -/
theorem one_stage_isSome :
    ∀ (k : Nat) (b : Board) (p : Poss), count_some p ≤ k →
      (one_stage (k + 1) b p).isSome = true := by
  intro k
  induction k with
  | zero =>
    intro b p hk
    rw [one_stage]
    cases hfail : is_board_failure b || is_out_of_options p with
    | true => simp [hfail]
    | false =>
      cases hfin : check_final_board b with
      | true => simp [hfail, hfin]
      | false =>
        cases hpc : possible_continuation p with
        | false => simp [hfail, hfin, hpc]
        | true => exact absurd hk (by have := count_some_pos p hpc; omega)
  | succ k ih =>
    intro b p hk
    rw [one_stage]
    cases hfail : is_board_failure b || is_out_of_options p with
    | true => simp [hfail]
    | false =>
      cases hfin : check_final_board b with
      | true => simp [hfail, hfin]
      | false =>
        cases hpc : possible_continuation p with
        | false => simp [hfail, hfin, hpc]
        | true =>
          have hdec := fill_pass_decreases p hpc
          have hrec := ih (fill_singletons_board b p) (fill_singletons_poss p) (by omega)
          simp [hfail, hfin, hpc, hrec]

/-- C10.  One propagation step always terminates: fuel 82 always suffices for
the loop of `one_stage`, because every iteration either returns an outcome or
fills at least one previously open cell and the board has only 81 cells. -/
theorem one_stage_terminates (b : Board) (p : Poss) :
    (one_stage 82 b p).isSome = true :=
  one_stage_isSome 81 b p (le_trans (List.countP_le_length _) (by decide))

/-- The row-major coordinate list is strictly increasing for the row-major
index `9*r + c`. -/
theorem coords_pairwise :
    List.Pairwise (fun a b : Nat × Nat => 9 * a.1 + a.2 < 9 * b.1 + b.2) coords := by decide

/-- Any cell listed after another in `coords` has a larger row-major index. -/
theorem coords_decomp_lt {l1 l2 : List (Nat × Nat)} {rc rc' : Nat × Nat}
    (h : coords = l1 ++ rc :: l2) (hmem : rc' ∈ l2) :
    9 * rc.1 + rc.2 < 9 * rc'.1 + rc'.2 := by
  have hp := coords_pairwise
  rw [h] at hp
  exact (List.pairwise_cons.mp (List.pairwise_append.mp hp).2.1).1 rc' hmem

/-- Behaviour of the scan underlying `find_least_options` on any coordinate
list: the fold either keeps its accumulator untouched, or hands back the
first cell that strictly improved the running minimum; the final minimum
bounds the length of every positive entry of the list. -/
theorem fl_fold_spec (p : Poss) :
    ∀ (l : List (Nat × Nat)) (m : Nat) (o : Option (Nat × Nat)),
      (l.foldl (fl_step p) (m, o)).1 ≤ m ∧
      (∀ rc ∈ l, ∀ opts : List Int, p rc.1 rc.2 = some opts → 0 < opts.length →
        (l.foldl (fl_step p) (m, o)).1 ≤ opts.length) ∧
      (((l.foldl (fl_step p) (m, o)).1 = m ∧ (l.foldl (fl_step p) (m, o)).2 = o) ∨
        ((l.foldl (fl_step p) (m, o)).1 < m ∧
          ∃ l1 rc l2, l = l1 ++ rc :: l2 ∧
            (l.foldl (fl_step p) (m, o)).2 = some rc ∧
            (∃ opts : List Int, p rc.1 rc.2 = some opts ∧
              opts.length = (l.foldl (fl_step p) (m, o)).1 ∧ 0 < opts.length) ∧
            (∀ rc' ∈ l1, ∀ opts' : List Int, p rc'.1 rc'.2 = some opts' →
              0 < opts'.length →
              (l.foldl (fl_step p) (m, o)).1 < opts'.length))) := by
  intro l
  induction l with
  | nil =>
    intro m o
    exact ⟨le_refl m, by simp, Or.inl ⟨rfl, rfl⟩⟩
  | cons x xs ih =>
    intro m o
    rw [List.foldl_cons]
    cases hp : p x.1 x.2 with
    | none =>
      have he : fl_step p (m, o) x = (m, o) := by simp [fl_step, hp]
      rw [he]
      obtain ⟨ih1, ih2, ih3⟩ := ih m o
      refine ⟨ih1, ?_, ?_⟩
      · intro rc hrc opts hpo hpos
        rcases List.mem_cons.mp hrc with rfl | hmem
        · rw [hp] at hpo; cases hpo
        · exact ih2 rc hmem opts hpo hpos
      · rcases ih3 with hl | ⟨hlt, l1, rc, l2, hdec, hres, hopts, hl1⟩
        · exact Or.inl hl
        · refine Or.inr ⟨hlt, x :: l1, rc, l2, by rw [hdec]; simp, hres, hopts, ?_⟩
          intro rc' hrc' opts' hpo' hpos'
          rcases List.mem_cons.mp hrc' with rfl | hmem
          · rw [hp] at hpo'; cases hpo'
          · exact hl1 rc' hmem opts' hpo' hpos'
    | some opts =>
      by_cases hc : 0 < opts.length ∧ opts.length < m
      · have he : fl_step p (m, o) x = (opts.length, some x) := by
          simp only [fl_step, hp]
          exact if_pos hc
        rw [he]
        obtain ⟨ih1, ih2, ih3⟩ := ih opts.length (some x)
        refine ⟨le_trans ih1 (le_of_lt hc.2), ?_, ?_⟩
        · intro rc hrc opts0 hpo hpos
          rcases List.mem_cons.mp hrc with rfl | hmem
          · rw [hp] at hpo
            cases hpo
            exact ih1
          · exact ih2 rc hmem opts0 hpo hpos
        · refine Or.inr ⟨lt_of_le_of_lt ih1 hc.2, ?_⟩
          rcases ih3 with ⟨e1, e2⟩ | ⟨hlt, l1, rc, l2, hdec, hres, hopts, hl1⟩
          · exact ⟨[], x, xs, rfl, e2, ⟨opts, hp, e1.symm, hc.1⟩, by simp⟩
          · refine ⟨x :: l1, rc, l2, by rw [hdec]; simp, hres, hopts, ?_⟩
            intro rc' hrc' opts' hpo' hpos'
            rcases List.mem_cons.mp hrc' with rfl | hmem
            · rw [hp] at hpo'
              cases hpo'
              exact hlt
            · exact hl1 rc' hmem opts' hpo' hpos'
      · have he : fl_step p (m, o) x = (m, o) := by
          simp only [fl_step, hp]
          exact if_neg hc
        rw [he]
        obtain ⟨ih1, ih2, ih3⟩ := ih m o
        have hxbound : ∀ opts0 : List Int, p x.1 x.2 = some opts0 → 0 < opts0.length →
            (xs.foldl (fl_step p) (m, o)).1 ≤ opts0.length := by
          intro opts0 hpo hpos
          rw [hp] at hpo
          cases hpo
          have hm : m ≤ opts.length := by
            by_contra hlt
            exact hc ⟨hpos, by omega⟩
          exact le_trans ih1 hm
        refine ⟨ih1, ?_, ?_⟩
        · intro rc hrc opts0 hpo hpos
          rcases List.mem_cons.mp hrc with rfl | hmem
          · exact hxbound opts0 hpo hpos
          · exact ih2 rc hmem opts0 hpo hpos
        · rcases ih3 with hl | ⟨hlt, l1, rc, l2, hdec, hres, hopts, hl1⟩
          · exact Or.inl hl
          · refine Or.inr ⟨hlt, x :: l1, rc, l2, by rw [hdec]; simp, hres, hopts, ?_⟩
            intro rc' hrc' opts' hpo' hpos'
            rcases List.mem_cons.mp hrc' with rfl | hmem
            · exact lt_of_lt_of_le hlt (by
                rw [hp] at hpo'
                cases hpo'
                by_contra hlt2
                exact hc ⟨hpos', by omega⟩)
            · exact hl1 rc' hmem opts' hpo' hpos'

/-- C6.  With no single-candidate cell anywhere (and the board neither failed
nor complete), `one_stage` returns `NOT_FINISH` at `find_least_options`, and
that scan returns an open cell of smallest positive candidate-set size,
breaking ties by the first cell encountered in row-major order; it returns a
cell whenever any open cell has a positive candidate count (of at most 9,
as any genuine candidate list has). -/
theorem branch_cell_least_options (b : Board) (p : Poss)
    (hfail : is_board_failure b = false) (hoo : is_out_of_options p = false)
    (hfin : check_final_board b = false) (hpc : possible_continuation p = false) :
    one_stage 82 b p = some (StageResult.NOT_FINISH (find_least_options p), b, p) ∧
    (∀ r c : Nat, find_least_options p = some (r, c) →
      ∃ opts : List Int, p r c = some opts ∧ 0 < opts.length ∧ r < 9 ∧ c < 9 ∧
        ∀ r' c' : Nat, r' < 9 → c' < 9 → ∀ opts' : List Int, p r' c' = some opts' →
          0 < opts'.length →
          opts.length ≤ opts'.length ∧
          (opts'.length ≤ opts.length → 9 * r + c ≤ 9 * r' + c')) ∧
    ((∃ r c : Nat, r < 9 ∧ c < 9 ∧ ∃ opts : List Int,
        p r c = some opts ∧ 0 < opts.length ∧ opts.length ≤ 9) →
      find_least_options p ≠ none) := by
  obtain ⟨s1, s2, s3⟩ := fl_fold_spec p coords 10 none
  refine ⟨?_, ?_, ?_⟩
  · rw [show (82 : Nat) = 81 + 1 from rfl, one_stage]
    simp [hfail, hoo, hfin, hpc]
  · intro r c hfind
    rw [find_least_options] at hfind
    rcases s3 with ⟨_, e2⟩ | ⟨hlt, l1, rc0, l2, hdec, hres, ⟨opts, hp0, hlen, hpos⟩, hl1⟩
    · rw [e2] at hfind; cases hfind
    · rw [hres] at hfind
      obtain rfl : rc0 = (r, c) := (Option.some.inj hfind)
      have hmemc : (r, c) ∈ coords := by
        rw [hdec]
        exact List.mem_append_right l1 (List.mem_cons_self _ l2)
      obtain ⟨hr, hc⟩ := (mem_coords (r, c)).mp hmemc
      refine ⟨opts, hp0, hpos, hr, hc, ?_⟩
      intro r' c' hr' hc' opts' hp' hpos'
      have hmin := s2 (r', c') ((mem_coords (r', c')).mpr ⟨hr', hc'⟩) opts' hp' hpos'
      refine ⟨by omega, ?_⟩
      intro hle'
      have heq : opts'.length = (coords.foldl (fl_step p) (10, none)).1 := by omega
      have hmemc' : (r', c') ∈ coords := (mem_coords (r', c')).mpr ⟨hr', hc'⟩
      rw [hdec] at hmemc'
      rcases List.mem_append.mp hmemc' with hin1 | hin2
      · exact absurd heq (by have := hl1 (r', c') hin1 opts' hp' hpos'; omega)
      · rcases List.mem_cons.mp hin2 with heq2 | hin3
        · rw [Prod.mk.injEq] at heq2
          obtain ⟨rfl, rfl⟩ := heq2
          omega
        · exact le_of_lt (coords_decomp_lt hdec hin3)
  · rintro ⟨r, c, hr, hc, opts, hp0, hpos, hle9⟩ hnone
    rw [find_least_options] at hnone
    rcases s3 with ⟨e1, _⟩ | ⟨_, _, _, _, _, hres, _, _⟩
    · have := s2 (r, c) ((mem_coords (r, c)).mpr ⟨hr, hc⟩) opts hp0 hpos
      omega
    · rw [hres] at hnone; cases hnone

/-- Witness for C6: on the board with two 9s in row 0 no cell has a single
candidate, and the step returns `NOT_FINISH` at the scan's pick. -/
theorem branch_cell_least_options_witness :
    one_stage 82 two_nines_board (possible_digits two_nines_board) =
      some (StageResult.NOT_FINISH (find_least_options (possible_digits two_nines_board)),
        two_nines_board, possible_digits two_nines_board) :=
  (branch_cell_least_options two_nines_board (possible_digits two_nines_board)
    (by decide) (by decide) (by decide) (by decide)).1

/-- C1.  The claim states that the invalidity check reports a board with two
9s in a row as invalid.  It does not: `check_part_for_failure` counts
duplicates with `for num in range(9)`, the digits 0-8, so a duplicated 9 is
never seen, although the function's own docstring promises to detect every
violation of Sudoku uniqueness.  On the board with 9s at (0,0) and (0,5) the
spec-level check finds the duplicate and the code's check does not. -/
theorem invalid_check_misses_duplicate_nine :
    spec_board_invalid two_nines_board = true ∧
    is_board_failure two_nines_board = false := by decide

/-- C3.  The claim states that a `Solved` outcome guarantees a complete board
with no duplicate digit in any row, column or box.  On the complete board
`full_dup_board`, whose row 0, column 0 and top-left box each contain two 9s,
`one_stage` returns `FINISH_SUCCESS` anyway, because `is_board_failure`
never checks the digit 9 (`range(9)` in `check_part_for_failure`). -/
theorem solved_despite_duplicate_nine :
    (one_stage 82 full_dup_board (possible_digits full_dup_board)).map Prod.fst =
      some StageResult.FINISH_SUCCESS ∧
    check_final_board full_dup_board = true ∧
    spec_board_invalid full_dup_board = true := by decide

/-- C4.  The claim's converse direction states that a step invoked on a board
with a duplicate digit returns `Failure`.  On `two_nines_board` a row holds
two 9s (spec-level invalid) and no open cell is out of options, yet
`one_stage` does not return `FINISH_FAILURE` (it asks for input at (0,1)),
because `check_part_for_failure` never tests the digit 9. -/
theorem no_failure_despite_duplicate_nine :
    spec_board_invalid two_nines_board = true ∧
    is_out_of_options (possible_digits two_nines_board) = false ∧
    (one_stage 82 two_nines_board (possible_digits two_nines_board)).map Prod.fst ≠
      some StageResult.FINISH_FAILURE := by decide

/-- C9.  On the all-empty board with its freshly computed candidate map, the
first step returns `NOT_FINISH` at coordinate (0,0) and the candidate set
computed for that cell is all nine digits. -/
theorem empty_board_first_step :
    (one_stage 82 empty_board (possible_digits empty_board)).map Prod.fst =
      some (StageResult.NOT_FINISH (some (0, 0))) ∧
    possible_digits empty_board 0 0 = some [1, 2, 3, 4, 5, 6, 7, 8, 9] := by decide

/-- C2, counterexample.  On `forced_nine_board` the step genuinely reaches the
single-candidate pass (no failure, board not final, a singleton exists), the
pass fills cell (0,8) with 9, and at the re-entry to the loop the candidate
map still holds the pre-pass options of cell (1,8) — which are not the valid
candidate sets of the updated board: 9 is still offered although it now sits
in column 8 and in the top-right box. -/
theorem stale_candidates_after_pass :
    is_board_failure forced_nine_board = false ∧
    is_out_of_options (possible_digits forced_nine_board) = false ∧
    check_final_board forced_nine_board = false ∧
    possible_continuation (possible_digits forced_nine_board) = true ∧
    fill_singletons_poss (possible_digits forced_nine_board) 1 8 =
      some (options forced_nine_board (1, 8)) ∧
    possible_digits (fill_singletons_board forced_nine_board
        (possible_digits forced_nine_board)) 1 8 ≠
      some (options forced_nine_board (1, 8)) := by decide

/-- C5, counterexample.  The claim states that no cell, including the
awaiting-choice cell, is mutated until a valid digit is supplied.  But when
the solve loop suspends (here at (0,0) on the empty board), `fill_board`
first writes the display placeholder 0 into the awaiting cell, so the board
is already mutated before any reply is examined. -/
theorem placeholder_mutates_awaiting_cell :
    (one_stage 82 empty_board (possible_digits empty_board)).map Prod.fst =
      some (StageResult.NOT_FINISH (some (0, 0))) ∧
    empty_board 0 0 = -1 ∧
    prompt_board empty_board 0 0 0 0 = 0 := by decide

end Sudoku
